import Mathlib

/-!
Shallow embedding of the `unit_conversion` crate (files `graph.rs`,
`conversion.rs`, `main.rs`, `tests.rs`).

Modelling conventions:

* Rust `f32` values are modelled as exact rationals (`ℚ`); all numeric
  claims are settled at the exact-arithmetic level at which the
  specification states them.
* `HashMap`/`HashSet` are modelled as association lists / membership lists.
  The source only uses keyed `get`/`insert` and `contains`/`insert`; it
  never iterates over a map or set, so iteration order plays no role and
  the list model is faithful.
* An `Arc`/`Weak` pointer to a vertex is modelled by the key under which
  `Graph::new` stored that vertex in the vertex map (`Graph::new` is the
  only code that creates vertices, and it only stores a vertex under its
  own value).  The weak-pointer upgrade performed in `traverse` when it
  follows an edge is therefore modelled as a map lookup.
* The recursion of `Graph::traverse` carries no termination argument in
  the source (its termination is exactly claim C4), so the embedding makes
  the recursion depth explicit with a fuel parameter; `traverseF` returns
  `none` when the fuel is exhausted, and `Graph.find_path` runs it with
  fuel `vertices.length + 1`.  The lemma `traverseF_fuelBound_ne_none`
  shows this fuel is never exhausted and `traverseF_fuel_stable` that more
  fuel never changes a delivered result, so the embedded function agrees
  with the source's unbounded recursion on every input.
* The Rust `assert!` panic in `Unit::from` (rejection of an unknown unit
  token) is modelled with `Option`.
* The fields named `from` in the source are called `from'` here, because
  `from` is a Lean keyword; likewise the field `to` is called `to'`.
-/

namespace UC

/-- Edge of `graph.rs`: a multiplicative weight together with a (weak)
pointer to the destination vertex, the pointer being represented by the
destination's key in the vertex map. -/
structure Edge (T : Type) where
  weight : ℚ
  to' : T
  deriving DecidableEq

/-- Vertex of `graph.rs`: a value and the ordered list of outgoing edges. -/
structure Vertex (T : Type) where
  value : T
  edges : List (Edge T)
  deriving DecidableEq

/-- Connection of `graph.rs`: an input fact `(from, to, value)`. -/
structure Connection (T : Type) where
  from' : T
  to' : T
  value : ℚ
  deriving DecidableEq

/-- Graph of `graph.rs`: the `HashMap<T, ArcVertex<T>>` of vertices,
modelled as an association list with (by construction) distinct keys. -/
structure Graph (T : Type) where
  vertices : List (T × Vertex T)
  deriving DecidableEq

variable {T : Type} [DecidableEq T]

/-- Keyed lookup in the vertex map (`HashMap::get`). -/
def lookupVertex : List (T × Vertex T) → T → Option (Vertex T)
  | [], _ => none
  | (k, v) :: rest, u => if u = k then some v else lookupVertex rest u

/-- Map insertion of a fresh, empty vertex for key `k`
(`vertex_map.insert(value, ArcVertex::from(value))`): `HashMap::insert`
replaces the value stored under an existing key and appends a new entry
otherwise. -/
def insertVertex (m : List (T × Vertex T)) (k : T) : List (T × Vertex T) :=
  if (lookupVertex m k).isSome then
    m.map fun p => if p.1 = k then (k, ⟨k, []⟩) else p
  else m ++ [(k, ⟨k, []⟩)]

/-- Append an edge to the vertex stored under key `k`
(`ArcVertex::add_edge`, which pushes onto the vertex's edge vector). -/
def addEdge (m : List (T × Vertex T)) (k : T) (e : Edge T) : List (T × Vertex T) :=
  m.map fun p => if p.1 = k then (p.1, ⟨p.2.value, p.2.edges ++ [e]⟩) else p

/-- Body of the second `for_each` loop of `Graph::new`: if both endpoints
of the fact are present in the vertex map (always true after the first
pass), push the forward edge with the given weight onto the origin and the
reverse edge with weight `1/value` onto the destination. -/
def connectVertices (m : List (T × Vertex T)) (fact : Connection T) :
    List (T × Vertex T) :=
  match lookupVertex m fact.from', lookupVertex m fact.to' with
  | some _, some _ =>
      addEdge (addEdge m fact.from' ⟨fact.value, fact.to'⟩)
        fact.to' ⟨1 / fact.value, fact.from'⟩
  | _, _ => m

/-- Graph construction (`Graph::new` of `graph.rs`).  First pass: for every
connection insert a fresh vertex for `to`, then for `from` (`HashMap`
insertion, replacing any previous entry).  Second pass: add the two edges
of every connection. -/
def Graph.new (connections : List (Connection T)) : Graph T :=
  let m1 := connections.foldl
    (fun m fact => insertVertex (insertVertex m fact.to') fact.from') []
  ⟨connections.foldl connectVertices m1⟩

/-- Iteration of `traverse`'s `for edge in &vertex.edges` loop: run `step`
on each edge in order, threading the (mutably shared) visited set, and
return the first successful path.  Generic in the edge type so the
monolithic `main.rs` variant can reuse it. -/
def goEdges {T E : Type} (step : E → List T → Option (Option (List E) × List T)) :
    List E → List T → Option (Option (List E) × List T)
  | [], visited => some (none, visited)
  | e :: rest, visited =>
    match step e visited with
    | none => none
    | some (some p, vis) => some (some p, vis)
    | some (none, vis) => goEdges step rest vis

/-- Recursive depth-first search of `Graph::traverse`, with explicit fuel.
The outer `Option` is `none` exactly when the fuel runs out; otherwise the
result is the returned `Option<Vec<Edge>>` paired with the final state of
the `&mut HashSet` of visited values.  `curr?` is the
`Option<&ArcVertex>` argument of the source. -/
def Graph.traverseF (g : Graph T) :
    Nat → Option (Vertex T) → T → List (Edge T) → List T →
    Option (Option (List (Edge T)) × List T)
  | 0, _, _, _, _ => none
  | _ + 1, none, _, _, visited => some (none, visited)
  | fuel + 1, some vertex, target_value, path, visited =>
    if vertex.value = target_value then some (some path, visited)
    else if vertex.edges.isEmpty then some (none, visited)
    else if vertex.value ∈ visited then some (none, visited)
    else
      goEdges
        (fun edge vis =>
          Graph.traverseF g fuel (lookupVertex g.vertices edge.to')
            target_value (path ++ [edge]) vis)
        vertex.edges (vertex.value :: visited)

/-- Fuel with which `find_path` runs the search: one more than the number
of vertices, proved sufficient by `traverseF_fuelBound_ne_none`. -/
def Graph.fuelBound (g : Graph T) : Nat := g.vertices.length + 1

/-- Path search (`Graph::find_path`): start the traversal at the vertex
stored under `from'` (if any), with an empty path and visited set. -/
def Graph.find_path (g : Graph T) (from' to' : T) : Option (List (Edge T)) :=
  (Graph.traverseF g g.fuelBound (lookupVertex g.vertices from') to' [] []).bind
    fun r => r.1

/-- Weight fold (`Graph::fold_path`): find a path and left-fold the seed
value by multiplying each edge's weight, in path order. -/
def Graph.fold_path (g : Graph T) (from' to' : T) (value : ℚ) : Option ℚ :=
  (g.find_path from' to').map fun path =>
    path.foldl (fun acc edge => acc * edge.weight) value

/-- Fixed vocabulary of valid unit tokens (`VALID_UNITS` of
`conversion.rs`; membership is the only operation used). -/
def VALID_UNITS : List String := ["m", "in", "hr", "ft", "min", "sec"]

/-- Unit newtype of `conversion.rs` (`struct Unit(String)`). -/
structure Unit where
  val : String
  deriving DecidableEq

/-- Validating constructor `Unit::from(&str)`: the source `assert!`s that
the token is in `VALID_UNITS` (a panic on failure, modelled as `none`). -/
def Unit.fromStr (value : String) : Option Unit :=
  if value ∈ VALID_UNITS then some ⟨value⟩ else none

/-- Conversion fact or query (`struct UnitConversion`). -/
structure UnitConversion where
  from' : Unit
  to' : Unit
  value : ℚ
  deriving DecidableEq

/-- Helper `UnitConversion::new`, which builds both units with the
validating `Unit::from` (panic modelled as `none`). -/
def UnitConversion.new (from' to' : String) (value : ℚ) : Option UnitConversion :=
  match Unit.fromStr from', Unit.fromStr to' with
  | some a, some b => some ⟨a, b, value⟩
  | _, _ => none

/-- Conversion of a fact into a graph connection
(`impl From<&UnitConversion> for Connection<Unit>`). -/
def Connection.ofUnitConversion (conversion : UnitConversion) : Connection Unit :=
  ⟨conversion.from', conversion.to', conversion.value⟩

/-- Result wrapper (`struct ConversionResult(Option<f32>)`). -/
structure ConversionResult where
  val : Option ℚ
  deriving DecidableEq

/-- Domain graph of `conversion.rs` (`struct ConversionGraph`). -/
structure ConversionGraph where
  graph : Graph Unit

/-- Constructor `ConversionGraph::new`: build the generic graph from the
facts turned into connections. -/
def ConversionGraph.new (facts : List UnitConversion) : ConversionGraph :=
  ⟨Graph.new (facts.map Connection.ofUnitConversion)⟩

/-- Query operation `ConversionGraph::convert`, delegating to
`Graph::fold_path`. -/
def ConversionGraph.convert (g : ConversionGraph) (query : UnitConversion) :
    ConversionResult :=
  ⟨g.graph.fold_path query.from' query.to' query.value⟩

/-- Example facts of `main.rs` (`TEST_GRAPH`): 1 m = 3.28 ft, 1 ft = 12 in,
1 hr = 60 min, 1 min = 60 sec. -/
def TEST_FACTS : List UnitConversion :=
  [⟨⟨"m"⟩, ⟨"ft"⟩, 3.28⟩, ⟨⟨"ft"⟩, ⟨"in"⟩, 12⟩,
   ⟨⟨"hr"⟩, ⟨"min"⟩, 60⟩, ⟨⟨"min"⟩, ⟨"sec"⟩, 60⟩]

/-- Unit `u` appears in at least one connection of the fact list, as
origin or destination. -/
def appearsIn (conns : List (Connection T)) (u : T) : Prop :=
  ∃ c ∈ conns, c.from' = u ∨ c.to' = u

instance {conns : List (Connection T)} {u : T} : Decidable (appearsIn conns u) :=
  decidable_of_iff (∃ c ∈ conns, c.from' = u ∨ c.to' = u) Iff.rfl

/-- Units `x` and `y` are joined by a single fact of the fact list, in
either direction (one step of the undirected closure of the fact set). -/
def factAdj (conns : List (Connection T)) (x y : T) : Prop :=
  ∃ c ∈ conns, (c.from' = x ∧ c.to' = y) ∨ (c.to' = x ∧ c.from' = y)

/-- Edges contributed to the vertex of value `u` by a single connection:
the forward edge when `u` is the origin, the reverse edge (inverse weight)
when `u` is the destination. -/
def eFor (fact : Connection T) (u : T) : List (Edge T) :=
  (if fact.from' = u then [⟨fact.value, fact.to'⟩] else []) ++
  (if fact.to' = u then [⟨1 / fact.value, fact.from'⟩] else [])

theorem lookupVertex_eq_none {m : List (T × Vertex T)} {u : T} :
    lookupVertex m u = none ↔ u ∉ m.map Prod.fst := by
  induction m with
  | nil => simp [lookupVertex]
  | cons p rest ih =>
    obtain ⟨k, v⟩ := p
    simp only [lookupVertex, List.map_cons, List.mem_cons]
    split <;> simp_all

theorem lookupVertex_mem_values {m : List (T × Vertex T)} {k : T} {v : Vertex T}
    (h : lookupVertex m k = some v) : v ∈ m.map Prod.snd := by
  induction m with
  | nil => simp [lookupVertex] at h
  | cons p rest ih =>
    obtain ⟨k', v'⟩ := p
    simp only [lookupVertex] at h
    split at h
    · simp_all
    · simp only [List.map_cons, List.mem_cons]
      exact Or.inr (ih h)

theorem lookupVertex_append {m m' : List (T × Vertex T)} {u : T} :
    lookupVertex (m ++ m') u =
      match lookupVertex m u with
      | some v => some v
      | none => lookupVertex m' u := by
  induction m with
  | nil => simp [lookupVertex]
  | cons p rest ih =>
    obtain ⟨k, v⟩ := p
    simp only [List.cons_append, lookupVertex]
    split <;> simp_all

theorem lookupVertex_cons {k u : T} {v : Vertex T} {rest : List (T × Vertex T)} :
    lookupVertex ((k, v) :: rest) u = if u = k then some v else lookupVertex rest u := rfl

theorem lookupVertex_replace {m : List (T × Vertex T)} {k u : T} :
    lookupVertex (m.map fun p => if p.1 = k then (k, (⟨k, []⟩ : Vertex T)) else p) u =
      if u = k then (lookupVertex m k).map (fun _ => (⟨k, []⟩ : Vertex T))
      else lookupVertex m u := by
  induction m with
  | nil => simp [lookupVertex]
  | cons p rest ih =>
    obtain ⟨k', v⟩ := p
    simp only [List.map_cons]
    by_cases hk : k' = k
    · rw [if_pos hk, lookupVertex_cons, lookupVertex_cons, lookupVertex_cons]
      by_cases huk : u = k
      · rw [if_pos huk, if_pos huk, if_pos hk.symm]
        rfl
      · rw [if_neg huk, if_neg huk, ih, if_neg huk,
          if_neg (fun h : u = k' => huk (h.trans hk))]
    · rw [if_neg hk, lookupVertex_cons, lookupVertex_cons, lookupVertex_cons]
      by_cases huk : u = k'
      · rw [if_pos huk, if_neg (fun h : u = k => hk (huk.symm.trans h)), if_pos huk]
      · rw [if_neg huk, ih]
        by_cases huk2 : u = k
        · rw [if_pos huk2, if_pos huk2, if_neg (fun h : k = k' => hk h.symm)]
        · rw [if_neg huk2, if_neg huk2, if_neg huk]

theorem lookupVertex_insertVertex {m : List (T × Vertex T)} {k u : T} :
    lookupVertex (insertVertex m k) u =
      if u = k then some ⟨k, []⟩ else lookupVertex m u := by
  unfold insertVertex
  split
  · next hsome =>
    rw [lookupVertex_replace]
    obtain ⟨v, hv⟩ := Option.isSome_iff_exists.mp hsome
    rw [hv]
    rfl
  · next hnone =>
    rw [lookupVertex_append]
    have hn : lookupVertex m k = none := by
      cases h : lookupVertex m k
      · rfl
      · rw [h] at hnone; simp at hnone
    by_cases huk : u = k
    · subst huk; rw [hn]; simp [lookupVertex]
    · cases h : lookupVertex m u
      · simp [h, lookupVertex, huk]
      · simp [h, huk]

theorem lookupVertex_addEdge {m : List (T × Vertex T)} {k u : T} {e : Edge T} :
    lookupVertex (addEdge m k e) u =
      if u = k then (lookupVertex m u).map fun v => ⟨v.value, v.edges ++ [e]⟩
      else lookupVertex m u := by
  induction m with
  | nil => simp [lookupVertex, addEdge]
  | cons p rest ih =>
    obtain ⟨k', v⟩ := p
    simp only [addEdge, List.map_cons] at ih ⊢
    by_cases hk : k' = k
    · rw [if_pos hk, lookupVertex_cons, lookupVertex_cons]
      by_cases huk : u = k'
      · simp only [if_pos huk, if_pos (huk.trans hk)]
        rfl
      · simp only [if_neg huk, ih, if_neg (fun h : u = k => huk (h.trans hk.symm))]
    · rw [if_neg hk, lookupVertex_cons, lookupVertex_cons]
      by_cases huk : u = k'
      · simp only [if_pos huk, if_neg (fun h : u = k => hk (huk.symm.trans h))]
      · simp only [if_neg huk, ih]

theorem keys_addEdge {m : List (T × Vertex T)} {k : T} {e : Edge T} :
    (addEdge m k e).map Prod.fst = m.map Prod.fst := by
  induction m with
  | nil => simp [addEdge]
  | cons p rest ih =>
    simp only [addEdge, List.map_cons] at ih ⊢
    split <;> simp_all

theorem keys_replace {m : List (T × Vertex T)} {k : T} :
    (m.map fun p => if p.1 = k then (k, (⟨k, []⟩ : Vertex T)) else p).map Prod.fst =
      m.map Prod.fst := by
  induction m with
  | nil => rfl
  | cons p rest ih =>
    obtain ⟨k', v⟩ := p
    simp only [List.map_cons]
    by_cases hk : k' = k
    · rw [if_pos hk, ih, hk]
    · rw [if_neg hk, ih]

theorem keys_insertVertex {m : List (T × Vertex T)} {k : T} :
    (insertVertex m k).map Prod.fst =
      if (lookupVertex m k).isSome then m.map Prod.fst else m.map Prod.fst ++ [k] := by
  unfold insertVertex
  split
  · exact keys_replace
  · simp

theorem nodup_keys_insertVertex {m : List (T × Vertex T)} {k : T}
    (h : (m.map Prod.fst).Nodup) : ((insertVertex m k).map Prod.fst).Nodup := by
  rw [keys_insertVertex]
  split
  · exact h
  · next hn =>
    have hnotin : k ∉ m.map Prod.fst := by
      rw [← lookupVertex_eq_none]
      cases hl : lookupVertex m k
      · rfl
      · rw [hl] at hn; simp at hn
    exact h.append (List.nodup_singleton k)
      (fun a ha hb => by simp at hb; exact hnotin (hb ▸ ha))

theorem appearsIn_cons {c : Connection T} {cs : List (Connection T)} {u : T} :
    appearsIn (c :: cs) u ↔ (c.from' = u ∨ c.to' = u) ∨ appearsIn cs u := by
  simp [appearsIn]

theorem lookupVertex_pass1 (conns : List (Connection T))
    (init : List (T × Vertex T)) (u : T) :
    lookupVertex
      (conns.foldl (fun m fact => insertVertex (insertVertex m fact.to') fact.from')
        init) u =
      if appearsIn conns u then some ⟨u, []⟩ else lookupVertex init u := by
  induction conns generalizing init with
  | nil => simp [appearsIn]
  | cons c cs ih =>
    rw [List.foldl_cons, ih, lookupVertex_insertVertex, lookupVertex_insertVertex]
    by_cases h1 : appearsIn cs u
    · rw [if_pos h1, if_pos (appearsIn_cons.mpr (Or.inr h1))]
    · by_cases h2 : u = c.from'
      · rw [if_neg h1, if_pos h2,
          if_pos (appearsIn_cons.mpr (Or.inl (Or.inl h2.symm)))]
        simp [h2]
      · by_cases h3 : u = c.to'
        · rw [if_neg h1, if_neg h2, if_pos h3,
            if_pos (appearsIn_cons.mpr (Or.inl (Or.inr h3.symm)))]
          simp [h3]
        · have hno : ¬ appearsIn (c :: cs) u := fun h => by
            rcases appearsIn_cons.mp h with (h | h) | h
            · exact h2 h.symm
            · exact h3 h.symm
            · exact h1 h
          rw [if_neg h1, if_neg h2, if_neg h3, if_neg hno]

theorem isSome_lookupVertex_addEdge {m : List (T × Vertex T)} {k u : T} {e : Edge T} :
    (lookupVertex (addEdge m k e) u).isSome = (lookupVertex m u).isSome := by
  rw [lookupVertex_addEdge]
  split
  · cases lookupVertex m u <;> rfl
  · rfl

theorem lookupVertex_addBoth {init : List (T × Vertex T)} {c : Connection T} {u : T} :
    lookupVertex
      (addEdge (addEdge init c.from' ⟨c.value, c.to'⟩)
        c.to' ⟨1 / c.value, c.from'⟩) u =
      (lookupVertex init u).map fun v => ⟨v.value, v.edges ++ eFor c u⟩ := by
  rw [lookupVertex_addEdge, lookupVertex_addEdge]
  by_cases h1 : u = c.from' <;> by_cases h2 : u = c.to' <;>
      cases hli : lookupVertex init u
  · simp [eFor, ← h1, ← h2]
  · simp [eFor, ← h1, ← h2]
  · have h2' : ¬ c.to' = u := fun h => h2 h.symm
    simp [eFor, ← h1, h2, h2']
  · have h2' : ¬ c.to' = u := fun h => h2 h.symm
    simp [eFor, ← h1, h2, h2']
  · have h1' : ¬ c.from' = u := fun h => h1 h.symm
    simp [eFor, h1, ← h2, h1']
  · have h1' : ¬ c.from' = u := fun h => h1 h.symm
    simp [eFor, h1, ← h2, h1']
  · have h1' : ¬ c.from' = u := fun h => h1 h.symm
    have h2' : ¬ c.to' = u := fun h => h2 h.symm
    simp [eFor, h1, h2, h1', h2']
  · have h1' : ¬ c.from' = u := fun h => h1 h.symm
    have h2' : ¬ c.to' = u := fun h => h2 h.symm
    simp [eFor, h1, h2, h1', h2']

theorem isSome_lookupVertex_connectVertices {m : List (T × Vertex T)}
    {c : Connection T} {u : T} :
    (lookupVertex (connectVertices m c) u).isSome = (lookupVertex m u).isSome := by
  unfold connectVertices
  split
  · rw [isSome_lookupVertex_addEdge, isSome_lookupVertex_addEdge]
  · rfl

theorem lookupVertex_pass2 (cs : List (Connection T)) (init : List (T × Vertex T))
    (u : T)
    (h : ∀ c ∈ cs, (lookupVertex init c.from').isSome ∧
      (lookupVertex init c.to').isSome) :
    lookupVertex (cs.foldl connectVertices init) u =
      (lookupVertex init u).map fun v =>
        ⟨v.value, v.edges ++ cs.flatMap fun c => eFor c u⟩ := by
  induction cs generalizing init with
  | nil =>
    simp only [List.foldl_nil, List.flatMap_nil]
    cases lookupVertex init u <;> simp
  | cons c cs ih =>
    obtain ⟨hc1, hc2⟩ := h c (List.mem_cons_self c cs)
    have hstep : connectVertices init c =
        addEdge (addEdge init c.from' ⟨c.value, c.to'⟩)
          c.to' ⟨1 / c.value, c.from'⟩ := by
      unfold connectVertices
      obtain ⟨v1, hv1⟩ := Option.isSome_iff_exists.mp hc1
      obtain ⟨v2, hv2⟩ := Option.isSome_iff_exists.mp hc2
      rw [hv1, hv2]
    rw [List.foldl_cons, hstep, ih _ ?hyp]
    case hyp =>
      intro c' hc'
      have hmem := h c' (List.mem_cons_of_mem c hc')
      refine ⟨?_, ?_⟩ <;>
        rw [isSome_lookupVertex_addEdge, isSome_lookupVertex_addEdge]
      · exact hmem.1
      · exact hmem.2
    rw [lookupVertex_addBoth]
    cases lookupVertex init u <;> simp

theorem lookupVertex_new (conns : List (Connection T)) (u : T) :
    lookupVertex (Graph.new conns).vertices u =
      if appearsIn conns u then some ⟨u, conns.flatMap fun c => eFor c u⟩
      else none := by
  have hm1 : ∀ x : T,
      lookupVertex
        (conns.foldl
          (fun m fact => insertVertex (insertVertex m fact.to') fact.from') []) x =
        if appearsIn conns x then some ⟨x, []⟩ else none := by
    intro x
    rw [lookupVertex_pass1]
    split <;> rfl
  simp only [Graph.new]
  rw [lookupVertex_pass2 _ _ _ ?hyp]
  case hyp =>
    intro c hc
    rw [hm1, hm1, if_pos ⟨c, hc, Or.inl rfl⟩, if_pos ⟨c, hc, Or.inr rfl⟩]
    exact ⟨rfl, rfl⟩
  rw [hm1 u]
  split
  · simp
  · rfl

theorem lookupVertex_new_isSome {conns : List (Connection T)} {u : T} :
    (lookupVertex (Graph.new conns).vertices u).isSome ↔ appearsIn conns u := by
  rw [lookupVertex_new]
  split <;> simp_all

theorem lookupVertex_new_eq_some {conns : List (Connection T)} {u : T}
    {vtx : Vertex T} (h : lookupVertex (Graph.new conns).vertices u = some vtx) :
    vtx.value = u ∧ vtx.edges = conns.flatMap fun c => eFor c u := by
  rw [lookupVertex_new] at h
  split at h
  · cases h
    exact ⟨rfl, rfl⟩
  · cases h

theorem keys_connectVertices {m : List (T × Vertex T)} {c : Connection T} :
    (connectVertices m c).map Prod.fst = m.map Prod.fst := by
  unfold connectVertices
  split
  · rw [keys_addEdge, keys_addEdge]
  · rfl

theorem nodup_keys_new (conns : List (Connection T)) :
    ((Graph.new conns).vertices.map Prod.fst).Nodup := by
  simp only [Graph.new]
  have h2 : ∀ (cs : List (Connection T)) (m : List (T × Vertex T)),
      (cs.foldl connectVertices m).map Prod.fst = m.map Prod.fst := by
    intro cs
    induction cs with
    | nil => intro m; rfl
    | cons c cs ih => intro m; rw [List.foldl_cons, ih, keys_connectVertices]
  rw [h2]
  have h1 : ∀ (cs : List (Connection T)) (m : List (T × Vertex T)),
      (m.map Prod.fst).Nodup →
      ((cs.foldl (fun m fact => insertVertex (insertVertex m fact.to') fact.from')
        m).map Prod.fst).Nodup := by
    intro cs
    induction cs with
    | nil => intro m h; exact h
    | cons c cs ih =>
      intro m h
      rw [List.foldl_cons]
      exact ih _ (nodup_keys_insertVertex (nodup_keys_insertVertex h))
  exact h1 conns [] (by simp)

theorem mem_eFor {c : Connection T} {u : T} {e : Edge T} :
    e ∈ eFor c u ↔
      (c.from' = u ∧ e = ⟨c.value, c.to'⟩) ∨
      (c.to' = u ∧ e = ⟨1 / c.value, c.from'⟩) := by
  unfold eFor
  by_cases h1 : c.from' = u <;> by_cases h2 : c.to' = u <;> simp [h1, h2]

theorem factAdj_iff_edge {conns : List (Connection T)} {u w : T} :
    factAdj conns u w ↔ ∃ e ∈ conns.flatMap (fun c => eFor c u), e.to' = w := by
  constructor
  · rintro ⟨c, hc, hcase⟩
    rcases hcase with ⟨h1, h2⟩ | ⟨h1, h2⟩
    · exact ⟨⟨c.value, c.to'⟩,
        List.mem_flatMap.mpr ⟨c, hc, mem_eFor.mpr (Or.inl ⟨h1, rfl⟩)⟩, h2⟩
    · exact ⟨⟨1 / c.value, c.from'⟩,
        List.mem_flatMap.mpr ⟨c, hc, mem_eFor.mpr (Or.inr ⟨h1, rfl⟩)⟩, h2⟩
  · rintro ⟨e, he, hw⟩
    obtain ⟨c, hc, hece⟩ := List.mem_flatMap.mp he
    rcases mem_eFor.mp hece with ⟨h1, h2⟩ | ⟨h1, h2⟩
    · exact ⟨c, hc, Or.inl ⟨h1, by rw [← hw, h2]⟩⟩
    · exact ⟨c, hc, Or.inr ⟨h1, by rw [← hw, h2]⟩⟩

theorem factAdj_appearsIn {conns : List (Connection T)} {u w : T}
    (h : factAdj conns u w) : appearsIn conns u := by
  obtain ⟨c, hc, hcase⟩ := h
  rcases hcase with ⟨h1, _⟩ | ⟨h1, _⟩
  · exact ⟨c, hc, Or.inl h1⟩
  · exact ⟨c, hc, Or.inr h1⟩

section GoEdgesLemmas

variable {E : Type} {step : E → List T → Option (Option (List E) × List T)}

theorem goEdges_preserve (Q : List T → Prop)
    (hstep : ∀ e vis res, step e vis = some res → Q vis → Q res.2) :
    ∀ (edges : List E) (vis : List T) (r : Option (List E)) (vis' : List T),
      goEdges step edges vis = some (r, vis') → Q vis → Q vis' := by
  intro edges
  induction edges with
  | nil =>
    intro vis r vis' h hq
    unfold goEdges at h
    cases h
    exact hq
  | cons e rest ih =>
    intro vis r vis' h hq
    unfold goEdges at h
    split at h
    · cases h
    · next p vis1 heq =>
      cases h
      exact hstep e vis _ heq hq
    · next vis1 heq =>
      exact ih vis1 r vis' h (hstep e vis _ heq hq)

theorem goEdges_subset
    (hmono : ∀ e vis res, step e vis = some res → vis ⊆ res.2)
    (edges : List E) (vis : List T) (r : Option (List E)) (vis' : List T)
    (h : goEdges step edges vis = some (r, vis')) : vis ⊆ vis' :=
  fun x hx =>
    goEdges_preserve (fun l => x ∈ l)
      (fun e vis0 res hs hq => hmono e vis0 res hs hq) edges vis r vis' h hx

theorem goEdges_fail_each
    (hmono : ∀ e vis res, step e vis = some res → vis ⊆ res.2) :
    ∀ (edges : List E) (vis vis' : List T),
      goEdges step edges vis = some (none, vis') →
      ∀ e ∈ edges, ∃ vis₁ vis₂, vis ⊆ vis₁ ∧
        step e vis₁ = some (none, vis₂) ∧ vis₂ ⊆ vis' := by
  intro edges
  induction edges with
  | nil =>
    intro vis vis' h e he
    exact absurd he (List.not_mem_nil e)
  | cons e0 rest ih =>
    intro vis vis' h e he
    unfold goEdges at h
    split at h
    · cases h
    · next p vis1 heq => cases h
    · next vis1 heq =>
      rcases List.mem_cons.mp he with rfl | hmem
      · exact ⟨vis, vis1, List.Subset.refl vis, heq,
          goEdges_subset hmono rest vis1 none vis' h⟩
      · obtain ⟨vis₁, vis₂, hsub, hstep', hsub'⟩ := ih vis1 vis' h e hmem
        exact ⟨vis₁, vis₂, (hmono e0 vis _ heq).trans hsub, hstep', hsub'⟩

theorem goEdges_new_elem
    (hmono : ∀ e vis res, step e vis = some res → vis ⊆ res.2) :
    ∀ (edges : List E) (vis vis' : List T),
      goEdges step edges vis = some (none, vis') →
      ∀ x ∈ vis', x ∉ vis → ∃ e ∈ edges, ∃ vis₁ vis₂,
        step e vis₁ = some (none, vis₂) ∧ x ∈ vis₂ ∧ x ∉ vis₁ ∧ vis₂ ⊆ vis' := by
  intro edges
  induction edges with
  | nil =>
    intro vis vis' h x hx hnx
    unfold goEdges at h
    cases h
    exact absurd hx hnx
  | cons e0 rest ih =>
    intro vis vis' h x hx hnx
    unfold goEdges at h
    split at h
    · cases h
    · next p vis1 heq => cases h
    · next vis1 heq =>
      by_cases hx1 : x ∈ vis1
      · exact ⟨e0, List.mem_cons_self e0 rest, vis, vis1, heq, hx1, hnx,
          goEdges_subset hmono rest vis1 none vis' h⟩
      · obtain ⟨e, he, vis₁, vis₂, h1, h2, h3, h4⟩ := ih vis1 vis' h x hx hx1
        exact ⟨e, List.mem_cons_of_mem e0 he, vis₁, vis₂, h1, h2, h3, h4⟩

theorem goEdges_success :
    ∀ (edges : List E) (vis : List T) (p : List E) (vis' : List T),
      goEdges step edges vis = some (some p, vis') →
      ∃ e ∈ edges, ∃ vis₁ vis₂, step e vis₁ = some (some p, vis₂) := by
  intro edges
  induction edges with
  | nil =>
    intro vis p vis' h
    unfold goEdges at h
    cases h
  | cons e0 rest ih =>
    intro vis p vis' h
    unfold goEdges at h
    split at h
    · cases h
    · next p1 vis1 heq =>
      cases h
      exact ⟨e0, List.mem_cons_self e0 rest, vis, vis', heq⟩
    · next vis1 heq =>
      obtain ⟨e, he, vis₁, vis₂, h1⟩ := ih vis1 p vis' h
      exact ⟨e, List.mem_cons_of_mem e0 he, vis₁, vis₂, h1⟩

theorem goEdges_ne_none (P : List T → Prop)
    (hPstep : ∀ e vis res, step e vis = some res → P vis → P res.2) :
    ∀ (edges : List E) (vis : List T), P vis →
      (∀ e ∈ edges, ∀ vis₁, P vis₁ → step e vis₁ ≠ none) →
      goEdges step edges vis ≠ none := by
  intro edges
  induction edges with
  | nil =>
    intro vis hP hne
    unfold goEdges
    simp
  | cons e0 rest ih =>
    intro vis hP hne
    unfold goEdges
    cases hse : step e0 vis with
    | none => exact absurd hse (hne e0 (List.mem_cons_self e0 rest) vis hP)
    | some res =>
      obtain ⟨r1, vis1⟩ := res
      cases r1 with
      | some p => simp
      | none =>
        exact ih vis1 (hPstep e0 vis _ hse hP)
          (fun e he vis₁ h => hne e (List.mem_cons_of_mem e0 he) vis₁ h)

end GoEdgesLemmas

theorem traverseF_subset {g : Graph T} :
    ∀ (fuel : Nat) (curr? : Option (Vertex T)) (target : T) (path : List (Edge T))
      (vis : List T) (r : Option (List (Edge T))) (vis' : List T),
      Graph.traverseF g fuel curr? target path vis = some (r, vis') → vis ⊆ vis' := by
  intro fuel
  induction fuel with
  | zero =>
    intro curr? target path vis r vis' h
    simp [Graph.traverseF] at h
  | succ fuel ih =>
    intro curr? target path vis r vis' h
    cases curr? with
    | none =>
      simp only [Graph.traverseF] at h
      cases h
      exact List.Subset.refl vis
    | some vertex =>
      simp only [Graph.traverseF] at h
      split at h
      · cases h; exact List.Subset.refl vis
      · split at h
        · cases h; exact List.Subset.refl vis
        · split at h
          · cases h; exact List.Subset.refl vis
          · have hsub := goEdges_subset
              (fun e vis0 res hs => ih _ _ _ _ res.1 res.2 hs)
              vertex.edges (vertex.value :: vis) r vis' h
            exact fun x hx => hsub (List.mem_cons_of_mem _ hx)

theorem traverseF_not_mem_target {g : Graph T} :
    ∀ (fuel : Nat) (curr? : Option (Vertex T)) (target : T) (path : List (Edge T))
      (vis : List T) (r : Option (List (Edge T))) (vis' : List T),
      Graph.traverseF g fuel curr? target path vis = some (r, vis') →
      target ∉ vis → target ∉ vis' := by
  intro fuel
  induction fuel with
  | zero =>
    intro curr? target path vis r vis' h hnt
    simp [Graph.traverseF] at h
  | succ fuel ih =>
    intro curr? target path vis r vis' h hnt
    cases curr? with
    | none =>
      simp only [Graph.traverseF] at h
      cases h
      exact hnt
    | some vertex =>
      simp only [Graph.traverseF] at h
      split at h
      · cases h; exact hnt
      · next h1 =>
        split at h
        · cases h; exact hnt
        · split at h
          · cases h; exact hnt
          · have hnt0 : target ∉ vertex.value :: vis := by
              intro hmem
              rcases List.mem_cons.mp hmem with h' | h'
              · exact h1 h'.symm
              · exact hnt h'
            exact goEdges_preserve (fun l => target ∉ l)
              (fun e vis0 res hs hq => ih _ _ _ _ res.1 res.2 hs hq)
              vertex.edges (vertex.value :: vis) r vis' h hnt0

theorem traverseF_ne_none {g : Graph T} :
    ∀ (fuel : Nat) (curr? : Option (Vertex T)) (target : T) (path : List (Edge T))
      (vis : List T),
      (∀ v, curr? = some v → v.value ∈ g.vertices.map fun p => p.2.value) →
      ((g.vertices.map fun p => p.2.value).toFinset \ vis.toFinset).card < fuel →
      Graph.traverseF g fuel curr? target path vis ≠ none := by
  intro fuel
  induction fuel with
  | zero =>
    intro curr? target path vis hcurr hcard
    exact absurd hcard (Nat.not_lt_zero _)
  | succ fuel ih =>
    intro curr? target path vis hcurr hcard
    cases curr? with
    | none => simp [Graph.traverseF]
    | some vertex =>
      simp only [Graph.traverseF]
      split
      · simp
      · split
        · simp
        · split
          · simp
          · next h1 h2 h3 =>
            have hvmem : vertex.value ∈
                (g.vertices.map fun p => p.2.value).toFinset :=
              List.mem_toFinset.mpr (hcurr vertex rfl)
            apply goEdges_ne_none (fun l => vertex.value :: vis ⊆ l)
            · intro e vis0 res hs hP
              exact hP.trans (traverseF_subset fuel _ _ _ _ res.1 res.2 hs)
            · exact List.Subset.refl _
            · intro e he vis₁ hP
              apply ih
              · intro v hv
                obtain ⟨p, hp, hpe⟩ := List.mem_map.mp (lookupVertex_mem_values hv)
                exact List.mem_map.mpr ⟨p, hp, by rw [hpe]⟩
              · have heq : (g.vertices.map fun p => p.2.value).toFinset \
                    (vertex.value :: vis).toFinset =
                    ((g.vertices.map fun p => p.2.value).toFinset \
                      vis.toFinset).erase vertex.value := by
                  ext y
                  simp only [Finset.mem_sdiff, Finset.mem_erase, List.toFinset_cons,
                    Finset.mem_insert, List.mem_toFinset]
                  tauto
                have hlt : ((g.vertices.map fun p => p.2.value).toFinset \
                    (vertex.value :: vis).toFinset).card <
                    ((g.vertices.map fun p => p.2.value).toFinset \
                      vis.toFinset).card := by
                  rw [heq]
                  exact Finset.card_erase_lt_of_mem
                    (Finset.mem_sdiff.mpr
                      ⟨hvmem, fun hc => h3 (List.mem_toFinset.mp hc)⟩)
                have hsub : (vertex.value :: vis).toFinset ⊆ vis₁.toFinset := by
                  intro y hy
                  exact List.mem_toFinset.mpr (hP (List.mem_toFinset.mp hy))
                have hle := Finset.card_le_card
                  (Finset.sdiff_subset_sdiff
                    (Finset.Subset.refl
                      ((g.vertices.map fun p => p.2.value).toFinset)) hsub)
                omega

/-- A value at which every branch of the search fails: either it has no
vertex, or its vertex is not the target and was a dead end or already
visited. -/
def Dead (g : Graph T) (target : T) (S : List T) (u : T) : Prop :=
  lookupVertex g.vertices u = none ∨
    ∃ vtx, lookupVertex g.vertices u = some vtx ∧ vtx.value ≠ target ∧
      (vtx.edges = [] ∨ vtx.value ∈ S)

theorem Dead_mono {g : Graph T} {target : T} {S S' : List T} {u : T}
    (hss : S ⊆ S') (h : Dead g target S u) : Dead g target S' u := by
  rcases h with h | ⟨vtx, h1, h2, h3⟩
  · exact Or.inl h
  · refine Or.inr ⟨vtx, h1, h2, ?_⟩
    rcases h3 with h3 | h3
    · exact Or.inl h3
    · exact Or.inr (hss h3)

theorem traverseF_fail_vertex {g : Graph T} :
    ∀ (fuel : Nat) (vertex : Vertex T) (target : T) (path : List (Edge T))
      (vis vis' : List T),
      Graph.traverseF g fuel (some vertex) target path vis = some (none, vis') →
      vertex.value ≠ target ∧ (vertex.edges = [] ∨ vertex.value ∈ vis') := by
  intro fuel vertex target path vis vis' h
  cases fuel with
  | zero => simp [Graph.traverseF] at h
  | succ fuel =>
    simp only [Graph.traverseF] at h
    split at h
    · cases h
    · next h1 =>
      split at h
      · next h2 =>
        cases h
        exact ⟨h1, Or.inl (List.isEmpty_iff.mp h2)⟩
      · split at h
        · next h3 =>
          cases h
          exact ⟨h1, Or.inr h3⟩
        · refine ⟨h1, Or.inr ?_⟩
          exact goEdges_subset
            (fun e vis0 res hs => traverseF_subset fuel _ _ _ _ res.1 res.2 hs)
            _ _ _ _ h (List.mem_cons_self _ _)

theorem traverseF_fail_Dead {g : Graph T}
    (fuel : Nat) (u : T) (target : T) (path : List (Edge T)) (vis vis' : List T)
    (h : Graph.traverseF g fuel (lookupVertex g.vertices u) target path vis =
      some (none, vis')) :
    Dead g target vis' u := by
  cases hl : lookupVertex g.vertices u with
  | none => exact Or.inl hl
  | some vtx =>
    rw [hl] at h
    obtain ⟨h1, h2⟩ := traverseF_fail_vertex fuel vtx target path vis vis' h
    exact Or.inr ⟨vtx, hl, h1, h2⟩

theorem traverseF_fail_closure {g : Graph T}
    (hwf : ∀ (k : T) (v : Vertex T), lookupVertex g.vertices k = some v →
      v.value = k) :
    ∀ (fuel : Nat) (curr? : Option (Vertex T)) (target : T) (path : List (Edge T))
      (vis vis' : List T),
      Graph.traverseF g fuel curr? target path vis = some (none, vis') →
      (∀ v, curr? = some v → ∃ k, lookupVertex g.vertices k = some v) →
      ∀ x ∈ vis', x ∉ vis →
        ∃ vtx, lookupVertex g.vertices x = some vtx ∧
          ∀ e ∈ vtx.edges, Dead g target vis' e.to' := by
  intro fuel
  induction fuel with
  | zero =>
    intro curr? target path vis vis' h hcurr x hx hnx
    simp [Graph.traverseF] at h
  | succ fuel ih =>
    intro curr? target path vis vis' h hcurr x hx hnx
    cases curr? with
    | none =>
      simp only [Graph.traverseF] at h
      cases h
      exact absurd hx hnx
    | some vertex =>
      obtain ⟨k, hk⟩ := hcurr vertex rfl
      have hkval : vertex.value = k := hwf k vertex hk
      simp only [Graph.traverseF] at h
      split at h
      · cases h
      · split at h
        · cases h
          exact absurd hx hnx
        · split at h
          · cases h
            exact absurd hx hnx
          · have hmono : ∀ (e : Edge T) (vis0 : List T)
                (res : Option (List (Edge T)) × List T),
                Graph.traverseF g fuel (lookupVertex g.vertices e.to') target
                  (path ++ [e]) vis0 = some res → vis0 ⊆ res.2 :=
              fun e vis0 res hs => traverseF_subset fuel _ _ _ _ res.1 res.2 hs
            by_cases hxv : x = vertex.value
            · refine ⟨vertex, by rw [hxv, hkval]; exact hk, ?_⟩
              intro e he
              obtain ⟨vis₁, vis₂, hsub1, hstep2, hsub2⟩ :=
                goEdges_fail_each hmono _ _ _ h e he
              exact Dead_mono hsub2
                (traverseF_fail_Dead fuel e.to' target (path ++ [e]) vis₁ vis₂
                  hstep2)
            · have hxv0 : x ∉ vertex.value :: vis := by
                intro hmem
                rcases List.mem_cons.mp hmem with h' | h'
                · exact hxv h'
                · exact hnx h'
              obtain ⟨e, he, vis₁, vis₂, hstep2, hx2, hnx1, hsub2⟩ :=
                goEdges_new_elem hmono _ _ _ h x hx hxv0
              obtain ⟨vtx, hvtx, hdead⟩ :=
                ih (lookupVertex g.vertices e.to') target (path ++ [e]) vis₁ vis₂
                  hstep2 (fun v hv => ⟨e.to', hv⟩) x hx2 hnx1
              exact ⟨vtx, hvtx, fun e' he' => Dead_mono hsub2 (hdead e' he')⟩

/-- One edge hop in the graph: some vertex stored under `x` has an edge to
`y`. -/
def edgeStep (g : Graph T) (x y : T) : Prop :=
  ∃ vtx, lookupVertex g.vertices x = some vtx ∧ ∃ e ∈ vtx.edges, e.to' = y

theorem traverseF_success {g : Graph T}
    (hwf : ∀ (k : T) (v : Vertex T), lookupVertex g.vertices k = some v →
      v.value = k) :
    ∀ (fuel : Nat) (curr? : Option (Vertex T)) (target : T) (path : List (Edge T))
      (vis : List T) (p : List (Edge T)) (vis' : List T),
      Graph.traverseF g fuel curr? target path vis = some (some p, vis') →
      ∀ v, curr? = some v → (∃ k, lookupVertex g.vertices k = some v) →
        Relation.ReflTransGen (edgeStep g) v.value target ∧
          (lookupVertex g.vertices target).isSome := by
  intro fuel
  induction fuel with
  | zero =>
    intro curr? target path vis p vis' h
    simp [Graph.traverseF] at h
  | succ fuel ih =>
    intro curr? target path vis p vis' h v hv hvk
    subst hv
    obtain ⟨k, hk⟩ := hvk
    have hkv : v.value = k := hwf k v hk
    simp only [Graph.traverseF] at h
    split at h
    · next h1 =>
      constructor
      · rw [h1]
      · rw [← h1, hkv, hk]
        rfl
    · split at h
      · cases h
      · split at h
        · cases h
        · obtain ⟨e, he, vis₁, vis₂, hstep2⟩ := goEdges_success _ _ _ _ h
          cases hlt : lookupVertex g.vertices e.to' with
          | none =>
            rw [hlt] at hstep2
            cases fuel with
            | zero => simp [Graph.traverseF] at hstep2
            | succ f => simp [Graph.traverseF] at hstep2
          | some v₂ =>
            rw [hlt] at hstep2
            obtain ⟨hrtg, htgt⟩ :=
              ih _ target (path ++ [e]) vis₁ p vis₂ hstep2 v₂ rfl ⟨e.to', hlt⟩
            have hv2 : v₂.value = e.to' := hwf _ _ hlt
            refine ⟨Relation.ReflTransGen.head (b := e.to') ?_ ?_, htgt⟩
            · exact ⟨v, by rw [hkv]; exact hk, e, he, rfl⟩
            · rw [← hv2]; exact hrtg

theorem traverseF_fuelBound_ne_none (g : Graph T) (a b : T) :
    Graph.traverseF g g.fuelBound (lookupVertex g.vertices a) b [] [] ≠ none := by
  apply traverseF_ne_none
  · intro v hv
    obtain ⟨p, hp, hpe⟩ := List.mem_map.mp (lookupVertex_mem_values hv)
    exact List.mem_map.mpr ⟨p, hp, by rw [hpe]⟩
  · simp only [List.toFinset_nil, Finset.sdiff_empty, Graph.fuelBound]
    have h1 := List.toFinset_card_le (g.vertices.map fun p => p.2.value)
    rw [List.length_map] at h1
    omega

theorem goEdges_mono_step {E : Type}
    {step step' : E → List T → Option (Option (List E) × List T)}
    (hstep : ∀ e vis res, step e vis = some res → step' e vis = some res) :
    ∀ (edges : List E) (vis : List T) (out : Option (List E) × List T),
      goEdges step edges vis = some out → goEdges step' edges vis = some out := by
  intro edges
  induction edges with
  | nil => intro vis out h; exact h
  | cons e0 rest ih =>
    intro vis out h
    unfold goEdges at h ⊢
    split at h
    · cases h
    · next p vis1 heq =>
      rw [hstep e0 vis _ heq]
      exact h
    · next vis1 heq =>
      rw [hstep e0 vis _ heq]
      exact ih vis1 out h

theorem traverseF_fuel_succ {g : Graph T} :
    ∀ (fuel : Nat) (curr? : Option (Vertex T)) (target : T) (path : List (Edge T))
      (vis : List T) (out : Option (List (Edge T)) × List T),
      Graph.traverseF g fuel curr? target path vis = some out →
      Graph.traverseF g (fuel + 1) curr? target path vis = some out := by
  intro fuel
  induction fuel with
  | zero =>
    intro curr? target path vis out h
    simp [Graph.traverseF] at h
  | succ fuel ih =>
    intro curr? target path vis out h
    cases curr? with
    | none => exact h
    | some vertex =>
      simp only [Graph.traverseF] at h ⊢
      split at h
      · next h1 => rw [if_pos h1]; exact h
      · next h1 =>
        rw [if_neg h1]
        split at h
        · next h2 => rw [if_pos h2]; exact h
        · next h2 =>
          rw [if_neg h2]
          split at h
          · next h3 => rw [if_pos h3]; exact h
          · next h3 =>
            rw [if_neg h3]
            exact goEdges_mono_step (fun e vis0 res hs => ih _ _ _ _ res hs)
              vertex.edges (vertex.value :: vis) out h

theorem traverseF_fuel_stable {g : Graph T}
    {fuel : Nat} {curr? : Option (Vertex T)} {target : T} {path : List (Edge T)}
    {vis : List T} {out : Option (List (Edge T)) × List T}
    (h : Graph.traverseF g fuel curr? target path vis = some out) :
    ∀ fuel', fuel ≤ fuel' →
      Graph.traverseF g fuel' curr? target path vis = some out := by
  intro fuel' hle
  induction fuel' , hle using Nat.le_induction with
  | base => exact h
  | succ n hn ih => exact traverseF_fuel_succ n curr? target path vis out ih

theorem find_path_isSome_iff {conns : List (Connection T)} {a b : T} :
    (Graph.find_path (Graph.new conns) a b).isSome ↔
      appearsIn conns a ∧ appearsIn conns b ∧
        Relation.ReflTransGen (factAdj conns) a b := by
  have hwf : ∀ (k : T) (v : Vertex T),
      lookupVertex (Graph.new conns).vertices k = some v → v.value = k :=
    fun k v h => (lookupVertex_new_eq_some h).1
  constructor
  · intro h
    unfold Graph.find_path at h
    cases ht : Graph.traverseF (Graph.new conns) (Graph.new conns).fuelBound
        (lookupVertex (Graph.new conns).vertices a) b [] [] with
    | none => rw [ht] at h; simp at h
    | some r =>
      obtain ⟨r1, vis'⟩ := r
      rw [ht] at h
      cases r1 with
      | none => simp at h
      | some p =>
        cases hla : lookupVertex (Graph.new conns).vertices a with
        | none =>
          rw [hla] at ht
          simp [Graph.traverseF, Graph.fuelBound] at ht
        | some va =>
          rw [hla] at ht
          obtain ⟨hrtg, hb⟩ :=
            traverseF_success hwf _ _ _ _ _ _ _ ht va rfl ⟨a, hla⟩
          have hvaval : va.value = a := hwf a va hla
          refine ⟨lookupVertex_new_isSome.mp (by rw [hla]; rfl),
            lookupVertex_new_isSome.mp hb, ?_⟩
          have hsub : ∀ x y, edgeStep (Graph.new conns) x y → factAdj conns x y := by
            intro x y hxy
            obtain ⟨vtx, hvtx, e, he, hety⟩ := hxy
            obtain ⟨hval, hedges⟩ := lookupVertex_new_eq_some hvtx
            refine factAdj_iff_edge.mpr ⟨e, ?_, hety⟩
            rw [← hedges]
            exact he
          exact Relation.ReflTransGen.mono hsub (hvaval ▸ hrtg)
  · rintro ⟨ha, hb, hconn⟩
    have hne := traverseF_fuelBound_ne_none (Graph.new conns) a b
    unfold Graph.find_path
    cases ht : Graph.traverseF (Graph.new conns) (Graph.new conns).fuelBound
        (lookupVertex (Graph.new conns).vertices a) b [] [] with
    | none => exact absurd ht hne
    | some r =>
      obtain ⟨r1, vis'⟩ := r
      cases r1 with
      | some p => rfl
      | none =>
        exfalso
        have hdead_a : Dead (Graph.new conns) b vis' a :=
          traverseF_fail_Dead _ a b [] [] vis' ht
        have hbnot : b ∉ vis' :=
          traverseF_not_mem_target _ _ _ _ _ _ _ ht (List.not_mem_nil b)
        have hclosure := traverseF_fail_closure hwf _ _ _ _ _ _ ht
          (fun v hv => ⟨a, hv⟩)
        have hkey : ∀ u, Relation.ReflTransGen (factAdj conns) u b →
            Dead (Graph.new conns) b vis' u → False := by
          intro u hu
          induction hu using Relation.ReflTransGen.head_induction_on with
          | refl =>
            intro hdead
            rcases hdead with hnone | ⟨vtx, hvtx, hval, _⟩
            · have hsome := lookupVertex_new_isSome.mpr hb
              rw [hnone] at hsome
              simp at hsome
            · exact hval (lookupVertex_new_eq_some hvtx).1
          | @head u w hadj htail ihk =>
            intro hdead
            rcases hdead with hnone | ⟨vtx, hvtx, hval, hrest⟩
            · have hsome := lookupVertex_new_isSome.mpr (factAdj_appearsIn hadj)
              rw [hnone] at hsome
              simp at hsome
            · obtain ⟨hvval, hvedges⟩ := lookupVertex_new_eq_some hvtx
              obtain ⟨e, he, hety⟩ := factAdj_iff_edge.mp hadj
              have he' : e ∈ vtx.edges := by rw [hvedges]; exact he
              have humem : vtx.value ∈ vis' := by
                rcases hrest with h0 | h0
                · rw [h0] at he'
                  exact absurd he' (List.not_mem_nil e)
                · exact h0
              obtain ⟨vtx2, hvtx2, hdeadall⟩ :=
                hclosure u (hvval ▸ humem) (List.not_mem_nil u)
              have hvtx2eq : vtx2 = vtx := by
                rw [hvtx] at hvtx2
                exact (Option.some.inj hvtx2).symm
              apply ihk
              have hdw := hdeadall e (by rw [hvtx2eq]; exact he')
              rw [hety] at hdw
              exact hdw
        exact hkey a hconn hdead_a

theorem fold_path_eq_none_iff {g : Graph T} {a b : T} {v : ℚ} :
    Graph.fold_path g a b v = none ↔ Graph.find_path g a b = none := by
  unfold Graph.fold_path
  cases Graph.find_path g a b <;> simp

theorem foldl_weight_mul :
    ∀ (p : List (Edge T)) (v k : ℚ),
      p.foldl (fun acc edge => acc * edge.weight) (v * k) =
        p.foldl (fun acc edge => acc * edge.weight) v * k := by
  intro p
  induction p with
  | nil => intro v k; rfl
  | cons e rest ih =>
    intro v k
    simp only [List.foldl_cons]
    rw [mul_right_comm v k e.weight, ih]

end UC

/-- C1 counterexample: the claim "convert(A, B, v) = v * r for every fact
(A, B, r) supplied to the constructor" fails on the code.  First conjunct:
with facts (m, in, 3), (in, ft, 5), (m, ft, 2) the depth-first search
answers the query (m, ft, 1) along the path through `in`, returning
1 * 3 * 5 = 15, not 1 * 2 as the claim demands for the fact (m, ft, 2).
Second conjunct: for a self-fact (m, m, 2) the search returns the empty
path, so convert(m, m, 1) = 1, not 1 * 2. -/
theorem C1_counterexample :
    ((UC.ConversionGraph.new
        [⟨⟨"m"⟩, ⟨"in"⟩, 3⟩, ⟨⟨"in"⟩, ⟨"ft"⟩, 5⟩, ⟨⟨"m"⟩, ⟨"ft"⟩, 2⟩]).convert
        ⟨⟨"m"⟩, ⟨"ft"⟩, 1⟩ ≠ ⟨some (1 * 2)⟩) ∧
    ((UC.ConversionGraph.new [⟨⟨"m"⟩, ⟨"m"⟩, 2⟩]).convert ⟨⟨"m"⟩, ⟨"m"⟩, 1⟩ ≠
      ⟨some (1 * 2)⟩) := by
  constructor
  · have hval : (UC.ConversionGraph.new
        [⟨⟨"m"⟩, ⟨"in"⟩, 3⟩, ⟨⟨"in"⟩, ⟨"ft"⟩, 5⟩, ⟨⟨"m"⟩, ⟨"ft"⟩, 2⟩]).convert
        ⟨⟨"m"⟩, ⟨"ft"⟩, 1⟩ = ⟨some 15⟩ := by
      simp [UC.ConversionGraph.new, UC.ConversionGraph.convert, UC.Graph.new,
        UC.connectVertices, UC.Graph.fold_path, UC.Graph.find_path,
        UC.Graph.traverseF, UC.Graph.fuelBound, UC.Connection.ofUnitConversion,
        UC.insertVertex, UC.addEdge, UC.lookupVertex, UC.goEdges]
      norm_num
    rw [hval]
    intro h
    rw [UC.ConversionResult.mk.injEq, Option.some.injEq] at h
    norm_num at h
  · have hval : (UC.ConversionGraph.new [⟨⟨"m"⟩, ⟨"m"⟩, 2⟩]).convert
        ⟨⟨"m"⟩, ⟨"m"⟩, 1⟩ = ⟨some 1⟩ := by
      simp [UC.ConversionGraph.new, UC.ConversionGraph.convert, UC.Graph.new,
        UC.connectVertices, UC.Graph.fold_path, UC.Graph.find_path,
        UC.Graph.traverseF, UC.Graph.fuelBound, UC.Connection.ofUnitConversion,
        UC.insertVertex, UC.addEdge, UC.lookupVertex, UC.goEdges]
    rw [hval]
    intro h
    rw [UC.ConversionResult.mk.injEq, Option.some.injEq] at h
    norm_num at h

/-- C1 (amended): for a graph built from the single fact (A, B, r) with
A ≠ B, convert(A, B, v) returns v * r and convert(B, A, v) returns
v / r, for every rational v. -/
theorem C1_single_fact_convert (a b : UC.Unit) (r v : ℚ) (hab : a ≠ b) :
    (UC.ConversionGraph.new [⟨a, b, r⟩]).convert ⟨a, b, v⟩ = ⟨some (v * r)⟩ ∧
    (UC.ConversionGraph.new [⟨a, b, r⟩]).convert ⟨b, a, v⟩ = ⟨some (v / r)⟩ := by
  have hba : b ≠ a := hab.symm
  constructor
  · simp [UC.ConversionGraph.new, UC.ConversionGraph.convert, UC.Graph.new,
      UC.connectVertices, UC.Graph.fold_path, UC.Graph.find_path,
      UC.Graph.traverseF, UC.Graph.fuelBound, UC.Connection.ofUnitConversion,
      UC.insertVertex, UC.addEdge, UC.lookupVertex, UC.goEdges, hab, hba]
  · simp [UC.ConversionGraph.new, UC.ConversionGraph.convert, UC.Graph.new,
      UC.connectVertices, UC.Graph.fold_path, UC.Graph.find_path,
      UC.Graph.traverseF, UC.Graph.fuelBound, UC.Connection.ofUnitConversion,
      UC.insertVertex, UC.addEdge, UC.lookupVertex, UC.goEdges, hab, hba,
      div_eq_mul_inv, one_div]

/-- C1 witness: the amended claim at the concrete fact (m, ft, 3) and
value 2. -/
theorem C1_single_fact_convert_witness :
    ((⟨"m"⟩ : UC.Unit) ≠ ⟨"ft"⟩) ∧
    (UC.ConversionGraph.new [⟨⟨"m"⟩, ⟨"ft"⟩, 3⟩]).convert ⟨⟨"m"⟩, ⟨"ft"⟩, 2⟩ =
      ⟨some (2 * 3)⟩ ∧
    (UC.ConversionGraph.new [⟨⟨"m"⟩, ⟨"ft"⟩, 3⟩]).convert ⟨⟨"ft"⟩, ⟨"m"⟩, 2⟩ =
      ⟨some (2 / 3)⟩ := by
  have hne : (⟨"m"⟩ : UC.Unit) ≠ ⟨"ft"⟩ := by decide
  exact ⟨hne, (C1_single_fact_convert ⟨"m"⟩ ⟨"ft"⟩ 3 2 hne).1,
    (C1_single_fact_convert ⟨"m"⟩ ⟨"ft"⟩ 3 2 hne).2⟩

/-- C2: convert (here `fold_path` on the generic graph) returns an absent
result exactly when the two units are not both present and connected in
the undirected closure of the fact set; `find_path` succeeds exactly when
both endpoints appear in some fact and are joined by a chain of facts.
The characterization mentions only the fact list, so the presence of a
result is independent of traversal order. -/
theorem C2_not_convertible_iff_disconnected {T : Type} [DecidableEq T]
    (conns : List (UC.Connection T)) (a b : T) (v : ℚ) :
    ((UC.Graph.find_path (UC.Graph.new conns) a b).isSome ↔
      UC.appearsIn conns a ∧ UC.appearsIn conns b ∧
        Relation.ReflTransGen (UC.factAdj conns) a b) ∧
    (UC.Graph.fold_path (UC.Graph.new conns) a b v = none ↔
      ¬ (UC.appearsIn conns a ∧ UC.appearsIn conns b ∧
        Relation.ReflTransGen (UC.factAdj conns) a b)) := by
  refine ⟨UC.find_path_isSome_iff, ?_⟩
  rw [UC.fold_path_eq_none_iff, ← Option.not_isSome_iff_eq_none]
  exact not_congr UC.find_path_isSome_iff

/-- C3: for any unit that appears in at least one fact, converting a value
to the unit itself returns the value unchanged (the search finds the
zero-length path and the fold returns the seed). -/
theorem C3_identity_conversion (facts : List UC.UnitConversion) (a : UC.Unit)
    (v : ℚ) (ha : ∃ f ∈ facts, f.from' = a ∨ f.to' = a) :
    (UC.ConversionGraph.new facts).convert ⟨a, a, v⟩ = ⟨some v⟩ := by
  have ha' : UC.appearsIn (facts.map UC.Connection.ofUnitConversion) a := by
    obtain ⟨f, hf, hcase⟩ := ha
    exact ⟨UC.Connection.ofUnitConversion f, List.mem_map_of_mem _ hf, hcase⟩
  have hl := UC.lookupVertex_new (facts.map UC.Connection.ofUnitConversion) a
  rw [if_pos ha'] at hl
  simp [UC.ConversionGraph.new, UC.ConversionGraph.convert, UC.Graph.fold_path,
    UC.Graph.find_path, UC.Graph.fuelBound, hl, UC.Graph.traverseF]

/-- C3 witness: identity conversion of 42 at the unit m of the example
fact list. -/
theorem C3_identity_conversion_witness :
    (∃ f ∈ UC.TEST_FACTS, f.from' = (⟨"m"⟩ : UC.Unit) ∨ f.to' = ⟨"m"⟩) ∧
    (UC.ConversionGraph.new UC.TEST_FACTS).convert ⟨⟨"m"⟩, ⟨"m"⟩, 42⟩ =
      ⟨some 42⟩ := by
  have ha : ∃ f ∈ UC.TEST_FACTS, f.from' = (⟨"m"⟩ : UC.Unit) ∨ f.to' = ⟨"m"⟩ :=
    ⟨⟨⟨"m"⟩, ⟨"ft"⟩, 3.28⟩, by simp [UC.TEST_FACTS], Or.inl rfl⟩
  exact ⟨ha, C3_identity_conversion UC.TEST_FACTS ⟨"m"⟩ 42 ha⟩

/-- C4: the search underlying `find_path` terminates on every finite
graph, cyclic ones included: run with the fuel `find_path` supplies
(|vertices| + 1 recursion depth) it never exhausts the fuel, and giving
the recursion any more depth never changes the result, because a branch
revisiting a value already in the visited set is cut off and the visited
set grows on each descent. -/
theorem C4_traverse_terminates {T : Type} [DecidableEq T] (g : UC.Graph T)
    (a b : T) :
    (UC.Graph.traverseF g g.fuelBound (UC.lookupVertex g.vertices a) b []
      []).isSome = true ∧
    ∀ fuel, g.fuelBound ≤ fuel →
      UC.Graph.traverseF g fuel (UC.lookupVertex g.vertices a) b [] [] =
        UC.Graph.traverseF g g.fuelBound (UC.lookupVertex g.vertices a) b []
          [] := by
  have h := UC.traverseF_fuelBound_ne_none g a b
  cases ht : UC.Graph.traverseF g g.fuelBound (UC.lookupVertex g.vertices a) b
      [] [] with
  | none => exact absurd ht h
  | some out =>
    exact ⟨rfl, fun fuel hf => UC.traverseF_fuel_stable ht fuel hf⟩

/-- C4 witness: the terminating search on the concrete cyclic two-vertex
graph built from the fact (m, ft, 2), with surplus fuel 10. -/
theorem C4_traverse_terminates_witness :
    ((UC.Graph.traverseF (UC.Graph.new [⟨"m", "ft", (2 : ℚ)⟩])
        (UC.Graph.new [⟨"m", "ft", (2 : ℚ)⟩]).fuelBound
        (UC.lookupVertex (UC.Graph.new [⟨"m", "ft", (2 : ℚ)⟩]).vertices "m")
        "ft" [] []).isSome = true) ∧
    ((UC.Graph.new [⟨"m", "ft", (2 : ℚ)⟩]).fuelBound ≤ 10 ∧
      UC.Graph.traverseF (UC.Graph.new [⟨"m", "ft", (2 : ℚ)⟩]) 10
          (UC.lookupVertex (UC.Graph.new [⟨"m", "ft", (2 : ℚ)⟩]).vertices "m")
          "ft" [] [] =
        UC.Graph.traverseF (UC.Graph.new [⟨"m", "ft", (2 : ℚ)⟩])
          (UC.Graph.new [⟨"m", "ft", (2 : ℚ)⟩]).fuelBound
          (UC.lookupVertex (UC.Graph.new [⟨"m", "ft", (2 : ℚ)⟩]).vertices "m")
          "ft" [] []) := by
  have hle : (UC.Graph.new [⟨"m", "ft", (2 : ℚ)⟩]).fuelBound ≤ 10 := by
    simp [UC.Graph.new, UC.Graph.fuelBound, UC.connectVertices, UC.insertVertex,
      UC.addEdge, UC.lookupVertex]
  exact ⟨(C4_traverse_terminates (UC.Graph.new [⟨"m", "ft", (2 : ℚ)⟩]) "m" "ft").1,
    hle,
    (C4_traverse_terminates (UC.Graph.new [⟨"m", "ft", (2 : ℚ)⟩]) "m" "ft").2 10
      hle⟩

/-- C5 counterexample: for a fact with rate 0 the two inserted edge
weights (0 and 1/0) are not multiplicative inverses of each other, in the
code's arithmetic as in any exact arithmetic. -/
theorem C5_counterexample :
    UC.lookupVertex (UC.Graph.new [⟨"m", "ft", (0 : ℚ)⟩]).vertices "m" =
      some ⟨"m", [⟨0, "ft"⟩]⟩ ∧
    UC.lookupVertex (UC.Graph.new [⟨"m", "ft", (0 : ℚ)⟩]).vertices "ft" =
      some ⟨"ft", [⟨1 / 0, "m"⟩]⟩ ∧
    (0 : ℚ) * (1 / 0) ≠ 1 := by
  refine ⟨?_, ?_, by norm_num⟩ <;>
    simp [UC.Graph.new, UC.connectVertices, UC.insertVertex, UC.addEdge,
      UC.lookupVertex]

/-- C5 (amended): every vertex's edge list is exactly the edges
contributed by the facts in order — two per fact, the forward edge with
the fact's rate from the origin and the reverse edge with weight 1/rate
from the destination, never mutated afterwards — and the two weights of a
fact's edge pair are multiplicative inverses whenever the rate is
nonzero. -/
theorem C5_two_edges_per_fact {T : Type} [DecidableEq T]
    (conns : List (UC.Connection T)) (c : UC.Connection T) (hc : c ∈ conns) :
    (∀ u vtx, UC.lookupVertex (UC.Graph.new conns).vertices u = some vtx →
      vtx.edges = conns.flatMap fun c' => UC.eFor c' u) ∧
    (⟨c.value, c.to'⟩ : UC.Edge T) ∈
      conns.flatMap (fun c' => UC.eFor c' c.from') ∧
    (⟨1 / c.value, c.from'⟩ : UC.Edge T) ∈
      conns.flatMap (fun c' => UC.eFor c' c.to') ∧
    (c.value ≠ 0 → c.value * (1 / c.value) = 1) := by
  refine ⟨fun u vtx h => (UC.lookupVertex_new_eq_some h).2, ?_, ?_, ?_⟩
  · exact List.mem_flatMap.mpr ⟨c, hc, UC.mem_eFor.mpr (Or.inl ⟨rfl, rfl⟩)⟩
  · exact List.mem_flatMap.mpr ⟨c, hc, UC.mem_eFor.mpr (Or.inr ⟨rfl, rfl⟩)⟩
  · intro h
    field_simp

/-- C5 witness: the edge pair of the concrete fact (m, ft, 3). -/
theorem C5_two_edges_per_fact_witness :
    ((⟨"m", "ft", (3 : ℚ)⟩ : UC.Connection String) ∈
      [(⟨"m", "ft", (3 : ℚ)⟩ : UC.Connection String)]) ∧
    (⟨3, "ft"⟩ : UC.Edge String) ∈
      [(⟨"m", "ft", (3 : ℚ)⟩ : UC.Connection String)].flatMap
        (fun c' => UC.eFor c' "m") ∧
    (3 : ℚ) ≠ 0 ∧ (3 : ℚ) * (1 / 3) = 1 := by
  have hc : (⟨"m", "ft", (3 : ℚ)⟩ : UC.Connection String) ∈
      [(⟨"m", "ft", (3 : ℚ)⟩ : UC.Connection String)] := List.mem_singleton.mpr rfl
  have h3 : (3 : ℚ) ≠ 0 := by norm_num
  exact ⟨hc,
    (C5_two_edges_per_fact [⟨"m", "ft", 3⟩] ⟨"m", "ft", 3⟩ hc).2.1,
    h3,
    (C5_two_edges_per_fact [⟨"m", "ft", 3⟩] ⟨"m", "ft", 3⟩ hc).2.2.2 h3⟩

/-- C6: constructing a `Unit` fails exactly when the token is outside the
fixed vocabulary m, in, hr, ft, min, sec, and succeeds with the token
itself otherwise; a fact or query built by `UnitConversion::new` is
accepted exactly when both its tokens are in the vocabulary. -/
theorem C6_unit_token_validation :
    (∀ s : String, (UC.Unit.fromStr s = none ↔ s ∉ UC.VALID_UNITS) ∧
      (s ∈ UC.VALID_UNITS → UC.Unit.fromStr s = some ⟨s⟩)) ∧
    (∀ (s t : String) (v : ℚ), (UC.UnitConversion.new s t v).isSome ↔
      (s ∈ UC.VALID_UNITS ∧ t ∈ UC.VALID_UNITS)) ∧
    UC.VALID_UNITS = ["m", "in", "hr", "ft", "min", "sec"] := by
  refine ⟨?_, ?_, rfl⟩
  · intro s
    constructor
    · unfold UC.Unit.fromStr
      split <;> simp_all
    · intro h
      simp [UC.Unit.fromStr, h]
  · intro s t v
    unfold UC.UnitConversion.new UC.Unit.fromStr
    by_cases h1 : s ∈ UC.VALID_UNITS <;> by_cases h2 : t ∈ UC.VALID_UNITS <;>
      simp [h1, h2]

/-- C6 witness: the valid token m is accepted as itself and the unknown
token xyz is rejected; a fact with an unknown token is rejected. -/
theorem C6_unit_token_validation_witness :
    UC.Unit.fromStr "m" = some ⟨"m"⟩ ∧ UC.Unit.fromStr "xyz" = none ∧
    (UC.UnitConversion.new "m" "xyz" 1).isSome = false := by
  refine ⟨(C6_unit_token_validation.1 "m").2 (by decide), ?_, ?_⟩
  · exact (C6_unit_token_validation.1 "xyz").1.mpr (by decide)
  · have h := C6_unit_token_validation.2.1 "m" "xyz" 1
    cases hx : (UC.UnitConversion.new "m" "xyz" 1).isSome
    · rfl
    · exact absurd (h.mp hx).2 (by decide)

/-- C8: the weight fold is linear in the seed value: multiplying the
result of a conversion by a scalar k equals converting the seed multiplied
by k, and the two sides are absent together. -/
theorem C8_fold_linearity (facts : List UC.UnitConversion)
    (q : UC.UnitConversion) (k : ℚ) :
    ((UC.ConversionGraph.new facts).convert q).val.map (fun x => x * k) =
      ((UC.ConversionGraph.new facts).convert ⟨q.from', q.to', q.value * k⟩).val := by
  unfold UC.ConversionGraph.convert
  unfold UC.Graph.fold_path
  cases UC.Graph.find_path (UC.ConversionGraph.new facts).graph q.from' q.to' with
  | none => rfl
  | some p => simp [UC.foldl_weight_mul]

/-- C9: the constructed vertex map has pairwise distinct keys, contains a
vertex for a unit exactly when the unit appears in at least one fact, and
every stored vertex carries the unit value it is keyed by. -/
theorem C9_vertex_map {T : Type} [DecidableEq T]
    (conns : List (UC.Connection T)) :
    ((UC.Graph.new conns).vertices.map Prod.fst).Nodup ∧
    (∀ u, (UC.lookupVertex (UC.Graph.new conns).vertices u).isSome ↔
      UC.appearsIn conns u) ∧
    (∀ u vtx, UC.lookupVertex (UC.Graph.new conns).vertices u = some vtx →
      vtx.value = u) :=
  ⟨UC.nodup_keys_new conns, fun _ => UC.lookupVertex_new_isSome,
    fun _ _ h => (UC.lookupVertex_new_eq_some h).1⟩

namespace UCMain

/-- Edge of `main.rs`: a conversion rate and a (weak) pointer to the
destination vertex, the pointer being represented by the destination's key
in the vertex map.  Same layout as the generic `UC.Edge`, with the
source's field name `conversion_rate`. -/
structure Edge where
  conversion_rate : ℚ
  to' : UC.Unit
  deriving DecidableEq

/-- Vertex of `main.rs`: a unit and its outgoing edges. -/
structure Vertex where
  unit : UC.Unit
  edges : List Edge
  deriving DecidableEq

/-- Keyed lookup in the vertex map of `main.rs` (`HashMap::get`). -/
def lookupVertex : List (UC.Unit × Vertex) → UC.Unit → Option Vertex
  | [], _ => none
  | (k, v) :: rest, u => if u = k then some v else lookupVertex rest u

/-- Map insertion of a fresh empty vertex
(`vertex_map.insert(unit, ArcVertex::from(unit))` in `main.rs`). -/
def insertVertex (m : List (UC.Unit × Vertex)) (k : UC.Unit) :
    List (UC.Unit × Vertex) :=
  if (lookupVertex m k).isSome then
    m.map fun p => if p.1 = k then (k, ⟨k, []⟩) else p
  else m ++ [(k, ⟨k, []⟩)]

/-- Edge push (`ArcVertex::add_edge` of `main.rs`). -/
def addEdge (m : List (UC.Unit × Vertex)) (k : UC.Unit) (e : Edge) :
    List (UC.Unit × Vertex) :=
  m.map fun p => if p.1 = k then (p.1, ⟨p.2.unit, p.2.edges ++ [e]⟩) else p

/-- Body of the second `for_each` loop of `main.rs`'s
`ConversionGraph::new`. -/
def connectVertices (m : List (UC.Unit × Vertex)) (fact : UC.UnitConversion) :
    List (UC.Unit × Vertex) :=
  match lookupVertex m fact.from', lookupVertex m fact.to' with
  | some _, some _ =>
      addEdge (addEdge m fact.from' ⟨fact.value, fact.to'⟩)
        fact.to' ⟨1 / fact.value, fact.from'⟩
  | _, _ => m

/-- Monolithic conversion graph of `main.rs`. -/
structure ConversionGraph where
  vertices : List (UC.Unit × Vertex)

/-- `ConversionGraph::new` of `main.rs`: same two passes as the generic
`Graph::new`, specialised to units. -/
def ConversionGraph.new (facts : List UC.UnitConversion) : ConversionGraph :=
  let m1 := facts.foldl
    (fun m fact => insertVertex (insertVertex m fact.to') fact.from') []
  ⟨facts.foldl connectVertices m1⟩

/-- Recursive search of `main.rs` (`ConversionGraph::traverse`, an
associated function without `self`); the vertex map is passed explicitly
because the embedding resolves the weak pointers of edges through it.
Fuel as in the generic embedding. -/
def traverseF (vertices : List (UC.Unit × Vertex)) :
    Nat → Option Vertex → UC.Unit → List Edge → List UC.Unit →
    Option (Option (List Edge) × List UC.Unit)
  | 0, _, _, _, _ => none
  | _ + 1, none, _, _, visited => some (none, visited)
  | fuel + 1, some vertex, target_unit, path, visited =>
    if vertex.unit = target_unit then some (some path, visited)
    else if vertex.edges.isEmpty then some (none, visited)
    else if vertex.unit ∈ visited then some (none, visited)
    else
      UC.goEdges
        (fun edge vis =>
          traverseF vertices fuel (lookupVertex vertices edge.to') target_unit
            (path ++ [edge]) vis)
        vertex.edges (vertex.unit :: visited)

/-- `ConversionGraph::convert` of `main.rs`: inline search from the
queried unit followed by the weight fold over the found path. -/
def ConversionGraph.convert (g : ConversionGraph) (query : UC.UnitConversion) :
    UC.ConversionResult :=
  match traverseF g.vertices (g.vertices.length + 1)
      (lookupVertex g.vertices query.from') query.to' [] [] with
  | some (some path, _) =>
      ⟨some (path.foldl (fun acc edge => acc * edge.conversion_rate) query.value)⟩
  | _ => ⟨none⟩

/-- Lazily initialised example graph of `main.rs` (`TEST_GRAPH`). -/
def TEST_GRAPH : ConversionGraph := ConversionGraph.new UC.TEST_FACTS

/-- Translation of a `main.rs` edge into the generic edge
(conversion_rate becomes weight). -/
def edgeToGeneric (e : Edge) : UC.Edge UC.Unit := ⟨e.conversion_rate, e.to'⟩

/-- Translation of a `main.rs` vertex into the generic vertex. -/
def vertexToGeneric (v : Vertex) : UC.Vertex UC.Unit :=
  ⟨v.unit, v.edges.map edgeToGeneric⟩

/-- Translation of the whole vertex map. -/
def mapToGeneric (m : List (UC.Unit × Vertex)) :
    List (UC.Unit × UC.Vertex UC.Unit) :=
  m.map fun p => (p.1, vertexToGeneric p.2)

theorem lookup_toGeneric (m : List (UC.Unit × Vertex)) (k : UC.Unit) :
    UC.lookupVertex (mapToGeneric m) k = (lookupVertex m k).map vertexToGeneric := by
  induction m with
  | nil => rfl
  | cons p rest ih =>
    obtain ⟨k', v⟩ := p
    simp only [mapToGeneric, List.map_cons] at ih ⊢
    rw [UC.lookupVertex_cons]
    by_cases hk : k = k'
    · rw [if_pos hk]
      simp [lookupVertex, if_pos hk]
    · rw [if_neg hk, ih]
      simp [lookupVertex, if_neg hk]

theorem insert_toGeneric (m : List (UC.Unit × Vertex)) (k : UC.Unit) :
    mapToGeneric (insertVertex m k) = UC.insertVertex (mapToGeneric m) k := by
  unfold insertVertex UC.insertVertex
  rw [lookup_toGeneric]
  cases hl : lookupVertex m k with
  | none =>
    simp only [Option.map_none', Option.isSome_none, Bool.false_eq_true,
      if_false, mapToGeneric, List.map_append]
    rfl
  | some v =>
    simp only [Option.map_some', Option.isSome_some, if_true, mapToGeneric,
      List.map_map]
    apply List.map_congr_left
    intro p _
    by_cases hp : p.1 = k
    · simp [hp, vertexToGeneric]
    · simp [hp]

theorem addEdge_toGeneric (m : List (UC.Unit × Vertex)) (k : UC.Unit) (e : Edge) :
    mapToGeneric (addEdge m k e) =
      UC.addEdge (mapToGeneric m) k (edgeToGeneric e) := by
  unfold addEdge UC.addEdge
  simp only [mapToGeneric, List.map_map]
  apply List.map_congr_left
  intro p _
  by_cases hp : p.1 = k
  · simp [hp, vertexToGeneric]
  · simp [hp]

theorem connect_toGeneric (m : List (UC.Unit × Vertex))
    (fact : UC.UnitConversion) :
    mapToGeneric (connectVertices m fact) =
      UC.connectVertices (mapToGeneric m) ⟨fact.from', fact.to', fact.value⟩ := by
  unfold connectVertices UC.connectVertices
  dsimp only
  rw [lookup_toGeneric, lookup_toGeneric]
  cases hl1 : lookupVertex m fact.from' <;> cases hl2 : lookupVertex m fact.to'
  · rfl
  · rfl
  · rfl
  · simp only [Option.map_some']
    rw [addEdge_toGeneric, addEdge_toGeneric]
    rfl

theorem new_toGeneric (facts : List UC.UnitConversion) :
    (UC.ConversionGraph.new facts).graph.vertices =
      mapToGeneric (ConversionGraph.new facts).vertices := by
  have hpass1 : ∀ (fs : List UC.UnitConversion) (m : List (UC.Unit × Vertex)),
      fs.foldl
        (fun mg fa => UC.insertVertex (UC.insertVertex mg fa.to') fa.from')
        (mapToGeneric m) =
      mapToGeneric
        (fs.foldl (fun mm fa => insertVertex (insertVertex mm fa.to') fa.from') m) := by
    intro fs
    induction fs with
    | nil => intro m; rfl
    | cons fa fs ih =>
      intro m
      simp only [List.foldl_cons]
      rw [← insert_toGeneric, ← insert_toGeneric, ih]
  have hpass2 : ∀ (fs : List UC.UnitConversion) (m : List (UC.Unit × Vertex)),
      fs.foldl
        (fun mg fa => UC.connectVertices mg ⟨fa.from', fa.to', fa.value⟩)
        (mapToGeneric m) =
      mapToGeneric (fs.foldl connectVertices m) := by
    intro fs
    induction fs with
    | nil => intro m; rfl
    | cons fa fs ih =>
      intro m
      simp only [List.foldl_cons]
      rw [← connect_toGeneric, ih]
  show (UC.Graph.new (facts.map UC.Connection.ofUnitConversion)).vertices = _
  simp only [UC.Graph.new, List.foldl_map, UC.Connection.ofUnitConversion]
  rw [show ([] : List (UC.Unit × UC.Vertex UC.Unit)) = mapToGeneric [] from rfl,
    hpass1, hpass2]
  rfl

theorem traverseF_toGeneric (m : List (UC.Unit × Vertex)) :
    ∀ (fuel : Nat) (curr? : Option Vertex) (target : UC.Unit)
      (path : List Edge) (vis : List UC.Unit),
      UC.Graph.traverseF ⟨mapToGeneric m⟩ fuel (curr?.map vertexToGeneric) target
        (path.map edgeToGeneric) vis =
      (traverseF m fuel curr? target path vis).map
        (fun out => (out.1.map (List.map edgeToGeneric), out.2)) := by
  intro fuel
  induction fuel with
  | zero => intro curr? target path vis; rfl
  | succ fuel ih =>
    intro curr? target path vis
    cases curr? with
    | none => rfl
    | some vertex =>
      simp only [Option.map_some']
      show UC.Graph.traverseF ⟨mapToGeneric m⟩ (fuel + 1)
        (some (vertexToGeneric vertex)) target (path.map edgeToGeneric) vis = _
      simp only [UC.Graph.traverseF, traverseF, vertexToGeneric]
      by_cases h1 : vertex.unit = target
      · rw [if_pos h1, if_pos h1]
        rfl
      · rw [if_neg h1, if_neg h1]
        have hemp : (vertex.edges.map edgeToGeneric).isEmpty = vertex.edges.isEmpty := by
          cases vertex.edges <;> rfl
        rw [hemp]
        by_cases h2 : vertex.edges.isEmpty
        · rw [if_pos h2, if_pos h2]
          rfl
        · rw [if_neg h2, if_neg h2]
          by_cases h3 : vertex.unit ∈ vis
          · rw [if_pos h3, if_pos h3]
            rfl
          · rw [if_neg h3, if_neg h3]
            have hgo : ∀ (edges : List Edge) (vis0 : List UC.Unit),
                UC.goEdges
                  (fun edge vis1 =>
                    UC.Graph.traverseF ⟨mapToGeneric m⟩ fuel
                      (UC.lookupVertex (mapToGeneric m) edge.to') target
                      (path.map edgeToGeneric ++ [edge]) vis1)
                  (edges.map edgeToGeneric) vis0 =
                (UC.goEdges
                  (fun edge vis1 =>
                    traverseF m fuel (lookupVertex m edge.to') target
                      (path ++ [edge]) vis1)
                  edges vis0).map
                  (fun out => (out.1.map (List.map edgeToGeneric), out.2)) := by
              intro edges
              induction edges with
              | nil => intro vis0; rfl
              | cons e0 rest ihe =>
                intro vis0
                have hstep :
                    UC.Graph.traverseF ⟨mapToGeneric m⟩ fuel
                      (UC.lookupVertex (mapToGeneric m) (edgeToGeneric e0).to')
                      target (path.map edgeToGeneric ++ [edgeToGeneric e0]) vis0 =
                    (traverseF m fuel (lookupVertex m e0.to') target
                      (path ++ [e0]) vis0).map
                      (fun out => (out.1.map (List.map edgeToGeneric), out.2)) := by
                  have hpath : path.map edgeToGeneric ++ [edgeToGeneric e0] =
                      (path ++ [e0]).map edgeToGeneric := by
                    rw [List.map_append]
                    rfl
                  rw [hpath, lookup_toGeneric]
                  exact ih (lookupVertex m e0.to') target (path ++ [e0]) vis0
                simp only [List.map_cons]
                unfold UC.goEdges
                rw [hstep]
                cases hse : traverseF m fuel (lookupVertex m e0.to') target
                    (path ++ [e0]) vis0 with
                | none => rfl
                | some out =>
                  obtain ⟨r1, vis1⟩ := out
                  cases r1 with
                  | some p => rfl
                  | none => exact ihe vis1
            exact hgo vertex.edges (vertex.unit :: vis)

/-- C10: for every fact list and every query, the monolithic
implementation of `main.rs` and the modular implementation of
`conversion.rs`/`graph.rs` return the same `ConversionResult` — the same
presence or absence, and the same numeric value. -/
theorem C10_main_modular_equivalent (facts : List UC.UnitConversion)
    (query : UC.UnitConversion) :
    ConversionGraph.convert (ConversionGraph.new facts) query =
      UC.ConversionGraph.convert (UC.ConversionGraph.new facts) query := by
  unfold ConversionGraph.convert UC.ConversionGraph.convert UC.Graph.fold_path
    UC.Graph.find_path
  have hv := new_toGeneric facts
  have hlen : (UC.ConversionGraph.new facts).graph.fuelBound =
      (ConversionGraph.new facts).vertices.length + 1 := by
    rw [UC.Graph.fuelBound, hv]
    simp [mapToGeneric]
  have hg : (UC.ConversionGraph.new facts).graph = ⟨mapToGeneric
      (ConversionGraph.new facts).vertices⟩ := by
    cases hgg : (UC.ConversionGraph.new facts).graph
    congr
    rw [← hv, hgg]
  rw [hlen, hg]
  have htr := traverseF_toGeneric (ConversionGraph.new facts).vertices
    ((ConversionGraph.new facts).vertices.length + 1)
    (lookupVertex (ConversionGraph.new facts).vertices query.from')
    query.to' [] []
  rw [lookup_toGeneric]
  rw [show ([] : List (UC.Edge UC.Unit)) =
    ([] : List Edge).map edgeToGeneric from rfl]
  rw [htr]
  cases hse : traverseF (ConversionGraph.new facts).vertices
      ((ConversionGraph.new facts).vertices.length + 1)
      (lookupVertex (ConversionGraph.new facts).vertices query.from')
      query.to' [] [] with
  | none => rfl
  | some out =>
    obtain ⟨r1, vis1⟩ := out
    cases r1 with
    | none => rfl
    | some p =>
      simp only [Option.map_some', Option.some_bind, Option.map_some']
      rw [List.foldl_map]
      rfl

end UCMain

/-- C7: with the graph built from the example facts of `main.rs`
(1 m = 3.28 ft, 1 ft = 12 in, 1 hr = 60 min, 1 min = 60 sec), the query
convert(sec, hr, 3600) returns the present value 1. -/
theorem C7_sec_to_hr_example :
    UCMain.ConversionGraph.convert UCMain.TEST_GRAPH ⟨⟨"sec"⟩, ⟨"hr"⟩, 3600⟩ =
      ⟨some 1⟩ := by
  simp [UCMain.TEST_GRAPH, UCMain.ConversionGraph.new,
    UCMain.ConversionGraph.convert, UCMain.connectVertices, UCMain.traverseF,
    UCMain.insertVertex, UCMain.addEdge, UCMain.lookupVertex, UC.goEdges,
    UC.TEST_FACTS]
  norm_num

/-- C9 witness: the vertex map of the single-fact graph (m, ft, 3). -/
theorem C9_vertex_map_witness :
    (((UC.Graph.new [⟨"m", "ft", (3 : ℚ)⟩]).vertices.map Prod.fst).Nodup) ∧
    ((UC.lookupVertex (UC.Graph.new [⟨"m", "ft", (3 : ℚ)⟩]).vertices
      "m").isSome ↔ UC.appearsIn [⟨"m", "ft", (3 : ℚ)⟩] "m") :=
  ⟨(C9_vertex_map [⟨"m", "ft", 3⟩]).1,
    (C9_vertex_map [⟨"m", "ft", 3⟩]).2.1 "m"⟩
